import Mathlib

set_option maxHeartbeats 1000000
set_option maxRecDepth 8192

/-!
Shallow embedding of the sparse package (sparse.go, reader.go, the
configuration/escaper file and the piece definitions): an incremental
parser for a nested attribute language.  Input sources are modelled as
lists of code points; end-of-stream is the only source error a list can
produce, so the error type below has exactly io.EOF and
ErrUnexpectedNodeLeave.  Byte-level helpers (readUntil, chompBuffer,
bytes.TrimRight) are modelled at code-point granularity, which coincides
with the source for single-byte code points; every concrete input used
below is ASCII.
-/

/-- Errors observable from the parser in this model: io.EOF and
ErrUnexpectedNodeLeave. -/
inductive Err where
  | eof
  | unexpectedNodeLeave
deriving DecidableEq

/-- Parse events (Piece in the source).  NodeLeave carries the depth value
before the decrement. -/
inductive Piece where
  | Field (key value : String)
  | Comment (text : String)
  | NodeEnter (label : String)
  | NodeLeave (depth : Int)
deriving DecidableEq

/-- Parser state: the three configuration flags and the nesting depth.
The scratch buffer is threaded locally through the token loops, since the
source resets it between tokens. -/
structure Parser where
  readComments : Bool
  keepSeqWhitespace : Bool
  keepTrailingWhitespace : Bool
  depth : Int
deriving DecidableEq

/-- The three Configuration values. -/
inductive Configuration where
  | ReadComments (b : Bool)
  | TrimWhitespace (b : Bool)
  | CompressWhitespace (b : Bool)

def Configuration.apply (c : Configuration) (p : Parser) : Parser :=
  match c with
  | .ReadComments b => { p with readComments := b }
  | .TrimWhitespace b => { p with keepTrailingWhitespace := !b }
  | .CompressWhitespace b => { p with keepSeqWhitespace := !b }

/-- Parser.Reset: zero the parser, then apply the configurations. -/
def Parser.ResetWith (configs : List Configuration) : Parser :=
  configs.foldl (fun p c => c.apply p)
    { readComments := false, keepSeqWhitespace := false,
      keepTrailingWhitespace := false, depth := 0 }

/-- The continuation values (the Go parser interface) reachable in
sparse.go: readFn(p.readKey); p.readComment(next) with next either
readFn(p.readKey) or nil; eofReader; errReader. -/
inductive PNext where
  | key
  | commentThen (resumeKey : Bool)
  | eofR
  | errR (e : Err)
deriving DecidableEq

/-- Result of one continuation invocation: updated parser, next
continuation (none is Go nil), piece, error, remaining input. -/
abbrev StepRes := Parser × Option PNext × Option Piece × Option Err × List Char

/-- ReadRune on a list source: one code point, or end-of-stream as
(rune 0, io.EOF). -/
def readRune : List Char → Char × Option Err × List Char
  | [] => ('\x00', some .eof, [])
  | a :: rest => (a, none, rest)

/-- The leading-whitespace skip loop shared by readKey and readValue. -/
def skipWS : Char → Option Err → List Char → Char × Option Err × List Char
  | c, err, rem =>
    if (c == ' ' || c == '\t' || c == '\n' || c == '\r') && err.isNone then
      match rem with
      | [] => ('\x00', some .eof, [])
      | a :: rest => skipWS a none rest
    else (c, err, rem)

/-- readUntil(r, delim): the sequence up to and including delim, or what
was read plus io.EOF. -/
def readUntil (delim : Char) : List Char → List Char × Option Err × List Char
  | [] => ([], some .eof, [])
  | a :: rest =>
    if a == delim then ([a], none, rest)
    else
      match readUntil delim rest with
      | (buf, err, rem) => (a :: buf, err, rem)

/-- unicode.IsSpace: the Unicode White_Space property. -/
def isSpace (c : Char) : Bool :=
  decide ((9 ≤ c.toNat ∧ c.toNat ≤ 13) ∨ c.toNat = 32 ∨ c.toNat = 0x85 ∨
    c.toNat = 0xA0 ∨ c.toNat = 0x1680 ∨ (0x2000 ≤ c.toNat ∧ c.toNat ≤ 0x200A) ∨
    c.toNat = 0x2028 ∨ c.toNat = 0x2029 ∨ c.toNat = 0x202F ∨ c.toNat = 0x205F ∨
    c.toNat = 0x3000)

/-- Helper for chompBuffer, working from the end of the buffer. -/
def chompRev : List Char → List Char
  | [] => []
  | c :: rest => if c == '\n' || !isSpace c then c :: rest else chompRev rest

/-- chompBuffer: truncate trailing whitespace from the buffer, stopping at
a newline or at a non-space character. -/
def chompBuffer (b : List Char) : List Char := (chompRev b.reverse).reverse

/-- The escape-decode switch shared by readKey and readValue. -/
def escDecode (c : Char) : Char :=
  if c == 't' then '\t'
  else if c == 'n' then '\n'
  else if c == 'r' then '\r'
  else if c == 'b' then '\x08'
  else if c == 'f' then '\x0C'
  else if c == '0' then '\x00'
  else if c == 'v' then '\x0B'
  else c

/-- Delimiter set of the readKey accumulation loop. -/
def keyDelim (c : Char) : Bool :=
  c == ' ' || c == '!' || c == ';' || c == '\t' || c == '\n' || c == '\r' || c == '#'

/-- Delimiter set of the readValue accumulation loop. -/
def valueDelim (c : Char) : Bool :=
  c == '\n' || c == ';' || c == '#'

/-- One iteration body of the accumulation loop, shared body-for-body by
readKey and readValue: carriage returns are skipped first (even during a
pending escape), a backslash arms the escape, an escaped newline chomps
the buffer (when compressing) and writes the newline, other escaped
characters decode and bypass the compression check, and unescaped
whitespace following whitespace is skipped when compressing.  Returns the
new (escape, last, buffer). -/
def accumStep (p : Parser) (escape : Bool) (last : Char) (buf : List Char)
    (c : Char) : Bool × Char × List Char :=
  if c == '\r' then (escape, last, buf)
  else if !escape && c == '\\' then (true, last, buf)
  else if escape then
    if c == '\n' then
      (false, '\n', (if !p.keepSeqWhitespace then chompBuffer buf else buf) ++ ['\n'])
    else (false, escDecode c, buf ++ [escDecode c])
  else if !p.keepSeqWhitespace && isSpace last && isSpace c then (escape, last, buf)
  else (escape, c, buf ++ [c])

/-- The token accumulation loop shared by readKey and readValue,
parameterized by the delimiter set of the loop condition.  Arguments are
the loop state (escape flag, last written character, buffer), the current
character with its read error, and the remaining input; the result is the
final buffer, the last read character, the error, and the remaining
input. -/
def accum (p : Parser) (d : Char → Bool) :
    Bool → Char → List Char → Char → Option Err → List Char →
    List Char × Char × Option Err × List Char
  | escape, last, buf, c, err, rem =>
    if (escape || !d c) && err.isNone then
      match rem with
      | [] => ((accumStep p escape last buf c).2.2, '\x00', some .eof, [])
      | a :: rest =>
        accum p d (accumStep p escape last buf c).1
          (accumStep p escape last buf c).2.1
          (accumStep p escape last buf c).2.2 a none rest
    else (buf, c, err, rem)

/-- Run the accumulation loop over a whole list from a given state: the
form the loop takes right after each read. -/
def accumL (p : Parser) (d : Char → Bool) (escape : Bool) (last : Char)
    (buf : List Char) : List Char → List Char × Char × Option Err × List Char
  | [] => (buf, '\x00', some .eof, [])
  | c :: rest => accum p d escape last buf c none rest

/-- The cutset of bytes.TrimRight at value emission. -/
def trimCut (c : Char) : Bool := c == ' ' || c == '\n' || c == '\t' || c == '\r'

/-- bytes.TrimRight(buf, " \n\t\r"). -/
def trimRightWS (buf : List Char) : List Char :=
  (buf.reverse.dropWhile (fun c => trimCut c)).reverse

/-- The value emission step of readValue: trim trailing whitespace unless
keepTrailingWhitespace is set; an empty buffer gives the empty string. -/
def emitValue (p : Parser) (buf : List Char) : String :=
  if buf.length > 0 then
    if !p.keepTrailingWhitespace then String.mk (trimRightWS buf)
    else String.mk buf
  else ""

/-- Parser.enter: emit NodeEnter and increment the depth. -/
def enter (p : Parser) (key : String) (rem : List Char) : StepRes :=
  ({ p with depth := p.depth + 1 }, some .key, some (.NodeEnter key), none, rem)

/-- Parser.leave: at depth 0 poison the parser with ErrUnexpectedNodeLeave,
otherwise emit NodeLeave carrying the pre-decrement depth. -/
def leave (p : Parser) (rem : List Char) : StepRes :=
  if p.depth = 0 then
    (p, some (.errR .unexpectedNodeLeave), none, some .unexpectedNodeLeave, rem)
  else
    ({ p with depth := p.depth - 1 }, some .key, some (.NodeLeave p.depth), none, rem)

/-- readValue: skip leading whitespace, dispatch on a leading brace or
comment marker, then accumulate the value and emit the field.  The source
branch returning errReader on a non-EOF read error cannot arise from a
list source and is omitted. -/
def readValue (p : Parser) (key : String) (input : List Char) : StepRes :=
  match readRune input with
  | (c0, err0, rem0) =>
    match skipWS c0 err0 rem0 with
    | (c, err, rem) =>
      if c == '{' then enter p key rem
      else if c == '#' then
        (p, some (.commentThen true), some (.Field key ""), none, rem)
      else
        match accum p valueDelim false '\x00' [] c err rem with
        | (buf, c1, err1, rem1) =>
          let next : Option PNext :=
            if err1 == some Err.eof then some .eofR
            else if c1 == '#' then some (.commentThen true)
            else some .key
          (p, next, some (.Field key (emitValue p buf)), err1, rem1)

/-- readKey: skip leading whitespace, dispatch on a brace or comment
marker, else accumulate a key and dispatch on its terminator. -/
def readKey (p : Parser) (input : List Char) : StepRes :=
  match readRune input with
  | (c0, err0, rem0) =>
    match skipWS c0 err0 rem0 with
    | (c, err, rem) =>
      if c == '}' then leave p rem
      else if c == '{' then enter p "" rem
      else if c == '#' then (p, some (.commentThen true), none, none, rem)
      else
        match accum p keyDelim false '\x00' [] c err rem with
        | (buf, c1, err1, rem1) =>
          if buf.length == 0 && !err1.isNone then
            match err1 with
            | some .eof => (p, some .eofR, none, some .eof, rem1)
            | some e => (p, some (.errR e), none, some e, rem1)
            | none => (p, some .eofR, none, none, rem1)
          else if err1 == some Err.eof then
            (p, some .eofR, some (.Field (String.mk buf) ""), some .eof, rem1)
          else if c1 == '#' then
            (p, some (.commentThen false), some (.Field (String.mk buf) ""), none, rem1)
          else if c1 == '!' || c1 == ';' then
            (p, some .key, some (.Field (String.mk buf) ""), none, rem1)
          else readValue p (String.mk buf) rem1

/-- One invocation of the current continuation (Go: p.next.read(r)).
readComment chomps the line ending exactly when the read succeeded, keeps
the resume continuation unless a non-EOF error occurred, and produces a
Comment piece only under readComments. -/
def stepNext (p : Parser) (n : PNext) (input : List Char) : StepRes :=
  match n with
  | .key => readKey p input
  | .commentThen rk =>
    match readUntil '\n' input with
    | (combuf, err, rem) =>
      let text := if err.isNone then combuf.dropLast else combuf
      let next : Option PNext :=
        match err with
        | some e =>
          if e == Err.eof then (if rk then some .key else none)
          else some (.errR e)
        | none => if rk then some .key else none
      let piece : Option Piece :=
        if p.readComments then some (.Comment (String.mk text)) else none
      (p, next, piece, err, rem)
  | .eofR => (p, some .eofR, none, some .eof, input)
  | .errR e => (p, some (.errR e), none, some e, input)

/-- The loop inside Parser.Read: run continuations until a piece, an
error, or a nil continuation.  Fuel bounds the silent iterations; any
fuel of at least input.length + 1 suffices because every silent iteration
consumes input. -/
def readLoop : Nat → Parser → Option PNext → List Char → StepRes
  | 0, p, n, input => (p, n, none, none, input)
  | _ + 1, p, none, input => (p, none, none, none, input)
  | fuel + 1, p, some n, input =>
    match stepNext p n input with
    | (p1, n1, piece, err, rem) =>
      if piece.isNone && err.isNone then readLoop fuel p1 n1 rem
      else (p1, n1, piece, err, rem)

/-- Parser.Read: a nil stored continuation is replaced by readKey, then
the loop runs. -/
def Parser.Read (p : Parser) (n : Option PNext) (input : List Char)
    (fuel : Nat) : StepRes :=
  readLoop fuel p (some (n.getD .key)) input

/-- The loop inside Parse: collect the piece of every successful Read
(including a nil piece) until an error; io.EOF is normalized to a nil
error, and a piece returned together with an error is dropped. -/
def parseLoop : Nat → Parser → Option PNext → List Char →
    List (Option Piece) × Option Err
  | 0, _, _, _ => ([], none)
  | fuel + 1, p, n, input =>
    match p.Read n input (input.length + 1) with
    | (p1, n1, piece, err, rem) =>
      match err with
      | none =>
        match parseLoop fuel p1 n1 rem with
        | (pieces, err1) => (piece :: pieces, err1)
      | some .eof => ([], none)
      | some e => ([], some e)

/-- Parse: reset a parser with the configurations and drive Read in a
loop. -/
def Parse (input : List Char) (configs : List Configuration) :
    List (Option Piece) × Option Err :=
  parseLoop (input.length + 1) (Parser.ResetWith configs) none input

/-- The zero-configuration (default) parser. -/
def defaultP : Parser := Parser.ResetWith []

/-- valueEscaper: replacement of one character. -/
def valueEscape1 (c : Char) : List Char :=
  if c == '#' then ['\\', '#']
  else if c == ';' then ['\\', ';']
  else if c == '\x08' then ['\\', 'b']
  else if c == '\x0C' then ['\\', 'f']
  else if c == '\n' then ['\\', '\n']
  else if c == '\r' then ['\\', 'r']
  else if c == '\x0B' then ['\\', 'v']
  else if c == '\x00' then ['\\', '0']
  else [c]

/-- valueEscaper on a string of characters. -/
def valueEscape (s : List Char) : List Char := s.flatMap valueEscape1

/-- keyEscaper: replacement of one character. -/
def keyEscape1 (c : Char) : List Char :=
  if c == ' ' then ['\\', ' ']
  else if c == '#' then ['\\', '#']
  else if c == ';' then ['\\', ';']
  else if c == '\x08' then ['\\', 'b']
  else if c == '\x0C' then ['\\', 'f']
  else if c == '\n' then ['\\', 'n']
  else if c == '\r' then ['\\', 'r']
  else if c == '\t' then ['\\', 't']
  else if c == '\x0B' then ['\\', 'v']
  else if c == '\x00' then ['\\', '0']
  else if c == '!' then ['\\', '!']
  else [c]

/-- keyEscaper on a string of characters. -/
def keyEscape (s : List Char) : List Char := s.flatMap keyEscape1

/-- The reserved characters of the key escaping table. -/
def keyAlphabet : List Char :=
  [' ', '#', ';', '\x08', '\x0C', '\n', '\r', '\t', '\x0B', '\x00', '!']

/-- The reserved characters of the value escaping table. -/
def valueAlphabet : List Char :=
  ['#', ';', '\x08', '\x0C', '\n', '\r', '\x0B', '\x00']

/-- ASCIIReader.ReadRune over a byte source: on a read error the raw byte
(zero here) and the error are returned; otherwise a byte with bit 0x8 set
becomes the replacement character, and any other byte is the code point
itself.  The result is (rune, size, error, rest). -/
def ASCIIReadRune : List Nat → Nat × Nat × Option Err × List Nat
  | [] => (0, 1, some .eof, [])
  | b :: rest =>
    if b.land 0x8 != 0 then (0xFFFD, 1, none, rest)
    else (b, 1, none, rest)

/-- No two adjacent whitespace characters. -/
def noAdjWS : List Char → Bool
  | [] => true
  | [_] => true
  | a :: b :: rest => !(isSpace a && isSpace b) && noAdjWS (b :: rest)

/-! ### Helper lemmas -/

/-- A read error makes the accumulation loop exit at once. -/
theorem accum_err (p : Parser) (d : Char → Bool) (esc : Bool) (last : Char)
    (buf : List Char) (c : Char) (e : Err) (rem : List Char) :
    accum p d esc last buf c (some e) rem = (buf, c, some e, rem) := by
  rw [accum.eq_def]
  simp

/-- When the loop condition holds, one accumulation iteration is the body
followed by the loop on the remaining input. -/
theorem accum_cont (p : Parser) (d : Char → Bool) (esc : Bool) (last : Char)
    (buf : List Char) (c : Char) (rem : List Char)
    (hc : (esc || !d c) = true) :
    accum p d esc last buf c none rem =
      accumL p d (accumStep p esc last buf c).1 (accumStep p esc last buf c).2.1
        (accumStep p esc last buf c).2.2 rem := by
  rw [accum.eq_def]
  cases rem <;> simp [accumL, hc]

/-- A delimiter (outside an escape) makes the accumulation loop exit. -/
theorem accum_exit (p : Parser) (d : Char → Bool) (esc : Bool) (last : Char)
    (buf : List Char) (c : Char) (rem : List Char)
    (hc : (esc || !d c) = false) :
    accum p d esc last buf c none rem = (buf, c, none, rem) := by
  rw [accum.eq_def]
  simp [hc]

/-- readValue either opens a node labeled by the pending key (incrementing
the depth) or leaves the parser unchanged and emits a field with that
key. -/
theorem readValue_cases (p : Parser) (key : String) (input : List Char)
    (p1 : Parser) (n1 : Option PNext) (piece : Option Piece) (err : Option Err)
    (rem : List Char) (h : readValue p key input = (p1, n1, piece, err, rem)) :
    (p1 = { p with depth := p.depth + 1 } ∧ piece = some (.NodeEnter key)) ∨
    (p1 = p ∧ ∃ v, piece = some (.Field key v)) := by
  rcases hr : readRune input with ⟨c0, err0, rem0⟩
  rcases hs : skipWS c0 err0 rem0 with ⟨c, err2, rem2⟩
  rcases ha : accum p valueDelim false '\x00' [] c err2 rem2 with ⟨buf, c1, err1, rem1⟩
  simp only [readValue, hr, hs, ha] at h
  by_cases h1 : c = '{'
  · subst h1
    simp [enter, Prod.ext_iff] at h
    exact Or.inl ⟨h.1.symm, h.2.2.1.symm⟩
  · by_cases h2 : c = '#'
    · subst h2
      simp [Prod.ext_iff] at h
      exact Or.inr ⟨h.1.symm, "", h.2.2.1.symm⟩
    · have h1' : (c == '{') = false := by simp [h1]
      have h2' : (c == '#') = false := by simp [h2]
      simp [h1', h2', Prod.ext_iff] at h
      exact Or.inr ⟨h.1.symm, emitValue p buf, h.2.2.1.symm⟩

/-- readKey either opens a node (incrementing the depth), closes one at
positive depth (emitting NodeLeave with the pre-decrement depth), or
leaves the parser unchanged and emits nothing or a field. -/
theorem readKey_cases (p : Parser) (input : List Char)
    (p1 : Parser) (n1 : Option PNext) (piece : Option Piece) (err : Option Err)
    (rem : List Char) (h : readKey p input = (p1, n1, piece, err, rem)) :
    (p1 = { p with depth := p.depth + 1 } ∧ ∃ k, piece = some (.NodeEnter k)) ∨
    (p.depth ≠ 0 ∧ p1 = { p with depth := p.depth - 1 } ∧
      piece = some (.NodeLeave p.depth)) ∨
    (p1 = p ∧ (piece = none ∨ ∃ k v, piece = some (.Field k v))) := by
  rcases hr : readRune input with ⟨c0, err0, rem0⟩
  rcases hs : skipWS c0 err0 rem0 with ⟨c, err2, rem2⟩
  rcases ha : accum p keyDelim false '\x00' [] c err2 rem2 with ⟨buf, c1, err1, rem1⟩
  simp only [readKey, hr, hs, ha] at h
  by_cases hb : c = '}'
  · subst hb
    simp only [beq_self_eq_true, if_true, leave] at h
    by_cases hd : p.depth = 0
    · simp [hd, Prod.ext_iff] at h
      exact Or.inr (Or.inr ⟨h.1.symm, Or.inl h.2.2.1.symm⟩)
    · simp [hd, Prod.ext_iff] at h
      exact Or.inr (Or.inl ⟨hd, h.1.symm, h.2.2.1.symm⟩)
  · by_cases hc : c = '{'
    · subst hc
      simp [enter, Prod.ext_iff] at h
      exact Or.inl ⟨h.1.symm, "", h.2.2.1.symm⟩
    · by_cases hh : c = '#'
      · subst hh
        simp [Prod.ext_iff] at h
        exact Or.inr (Or.inr ⟨h.1.symm, Or.inl h.2.2.1.symm⟩)
      · have hb' : (c == '}') = false := by simp [hb]
        have hc' : (c == '{') = false := by simp [hc]
        have hh' : (c == '#') = false := by simp [hh]
        simp only [hb', hc', hh', Bool.false_eq_true, if_false] at h
        by_cases he : (buf.length == 0 && !err1.isNone) = true
        · simp only [he, if_true] at h
          rcases err1 with _ | e
          · simp [Prod.ext_iff] at h
            exact Or.inr (Or.inr ⟨h.1.symm, Or.inl h.2.2.1.symm⟩)
          · cases e <;> simp [Prod.ext_iff] at h <;>
              exact Or.inr (Or.inr ⟨h.1.symm, Or.inl h.2.2.1.symm⟩)
        · simp only [he, Bool.false_eq_true, if_false] at h
          by_cases hf : (err1 == some Err.eof) = true
          · simp only [hf, if_true] at h
            simp [Prod.ext_iff] at h
            exact Or.inr (Or.inr ⟨h.1.symm, Or.inr ⟨_, _, h.2.2.1.symm⟩⟩)
          · simp only [hf, Bool.false_eq_true, if_false] at h
            by_cases hg : (c1 == '#') = true
            · simp only [hg, if_true] at h
              simp [Prod.ext_iff] at h
              exact Or.inr (Or.inr ⟨h.1.symm, Or.inr ⟨_, _, h.2.2.1.symm⟩⟩)
            · simp only [hg, Bool.false_eq_true, if_false] at h
              by_cases hi : (c1 == '!' || c1 == ';') = true
              · simp only [hi, if_true] at h
                simp [Prod.ext_iff] at h
                exact Or.inr (Or.inr ⟨h.1.symm, Or.inr ⟨_, _, h.2.2.1.symm⟩⟩)
              · simp only [hi, Bool.false_eq_true, if_false] at h
                rcases readValue_cases p (String.mk buf) rem1 p1 n1 piece err rem h with
                  hv | hv
                · exact Or.inl ⟨hv.1, _, hv.2⟩
                · exact Or.inr (Or.inr ⟨hv.1, Or.inr ⟨_, _, hv.2.choose_spec⟩⟩)

/-- One continuation invocation either opens a node, closes one at
positive depth, or leaves the parser unchanged; a Comment piece can only
arise when readComments is set. -/
theorem stepNext_cases (p : Parser) (n : PNext) (input : List Char)
    (p1 : Parser) (n1 : Option PNext) (piece : Option Piece) (err : Option Err)
    (rem : List Char) (h : stepNext p n input = (p1, n1, piece, err, rem)) :
    (p1 = { p with depth := p.depth + 1 } ∧ ∃ k, piece = some (.NodeEnter k)) ∨
    (p.depth ≠ 0 ∧ p1 = { p with depth := p.depth - 1 } ∧
      piece = some (.NodeLeave p.depth)) ∨
    (p1 = p ∧ (piece = none ∨ (∃ k v, piece = some (.Field k v)) ∨
      (p.readComments = true ∧ ∃ t, piece = some (.Comment t)))) := by
  cases n with
  | key =>
    rcases readKey_cases p input p1 n1 piece err rem h with h1 | h2 | ⟨h3, h4⟩
    · exact Or.inl h1
    · exact Or.inr (Or.inl h2)
    · rcases h4 with h5 | h5
      · exact Or.inr (Or.inr ⟨h3, Or.inl h5⟩)
      · exact Or.inr (Or.inr ⟨h3, Or.inr (Or.inl h5)⟩)
  | commentThen rk =>
    rcases hu : readUntil '\n' input with ⟨combuf, erru, remu⟩
    simp only [stepNext, hu] at h
    by_cases hrc : p.readComments
    · simp [hrc, Prod.ext_iff] at h
      exact Or.inr (Or.inr ⟨h.1.symm, Or.inr (Or.inr ⟨hrc, _, h.2.2.1.symm⟩)⟩)
    · simp [hrc, Prod.ext_iff] at h
      exact Or.inr (Or.inr ⟨h.1.symm, Or.inl h.2.2.1.symm⟩)
  | eofR =>
    simp [stepNext, Prod.ext_iff] at h
    exact Or.inr (Or.inr ⟨h.1.symm, Or.inl h.2.2.1.symm⟩)
  | errR e =>
    simp [stepNext, Prod.ext_iff] at h
    exact Or.inr (Or.inr ⟨h.1.symm, Or.inl h.2.2.1.symm⟩)

/-- The Read loop satisfies the same case analysis as a single
continuation invocation: silent iterations leave the parser
unchanged. -/
theorem readLoop_cases (fuel : Nat) (p : Parser) (n : Option PNext)
    (input : List Char) (p1 : Parser) (n1 : Option PNext) (piece : Option Piece)
    (err : Option Err) (rem : List Char)
    (h : readLoop fuel p n input = (p1, n1, piece, err, rem)) :
    (p1 = { p with depth := p.depth + 1 } ∧ ∃ k, piece = some (.NodeEnter k)) ∨
    (p.depth ≠ 0 ∧ p1 = { p with depth := p.depth - 1 } ∧
      piece = some (.NodeLeave p.depth)) ∨
    (p1 = p ∧ (piece = none ∨ (∃ k v, piece = some (.Field k v)) ∨
      (p.readComments = true ∧ ∃ t, piece = some (.Comment t)))) := by
  induction fuel generalizing p n input with
  | zero =>
    simp only [readLoop, Prod.mk.injEq] at h
    exact Or.inr (Or.inr ⟨h.1.symm, Or.inl h.2.2.1.symm⟩)
  | succ fuel ih =>
    cases n with
    | none =>
      simp only [readLoop, Prod.mk.injEq] at h
      exact Or.inr (Or.inr ⟨h.1.symm, Or.inl h.2.2.1.symm⟩)
    | some nn =>
      rcases hst : stepNext p nn input with ⟨pa, na, pca, ea, ra⟩
      simp only [readLoop, hst] at h
      by_cases hq : (pca.isNone && ea.isNone) = true
      · simp only [hq, if_true] at h
        have hsil := stepNext_cases p nn input pa na pca ea ra hst
        have hpca : pca = none := by
          rcases pca with _ | x
          · rfl
          · simp at hq
        subst hpca
        rcases hsil with ⟨_, k, hk⟩ | ⟨_, _, hk⟩ | ⟨hpa, _⟩
        · exact absurd hk (by simp)
        · exact absurd hk (by simp)
        · rw [hpa] at h
          exact ih p na ra h
      · simp only [hq, Bool.false_eq_true, if_false, Prod.mk.injEq] at h
        obtain ⟨e1, e2, e3, e4, e5⟩ := h
        rw [← e1, ← e3]
        exact stepNext_cases p nn input pa na pca ea ra hst

/-- skipWS leaves a non-whitespace current character alone. -/
theorem skipWS_no (c : Char) (err : Option Err) (rem : List Char)
    (h : (c == ' ' || c == '\t' || c == '\n' || c == '\r') = false) :
    skipWS c err rem = (c, err, rem) := by
  rw [skipWS.eq_def]
  simp [h]

/-- Applying configurations never touches the depth. -/
theorem ResetWith_depth (cfgs : List Configuration) :
    (Parser.ResetWith cfgs).depth = 0 := by
  have key : ∀ (l : List Configuration) (p : Parser),
      (l.foldl (fun p c => c.apply p) p).depth = p.depth := by
    intro l
    induction l with
    | nil => intro p; rfl
    | cons c cs ih =>
      intro p
      rw [List.foldl_cons, ih]
      cases c <;> rfl
  exact key cfgs _

/-! ### Claims -/

/-- C1: the claim says that for a document whose last field is cut off by
end-of-stream, Parse returns a sequence including the final Field event
and a nil error.  In the code, readKey and readValue return that final
Field together with io.EOF, and the Parse loop appends a piece only when
the error is nil, so the final field is dropped: Parse on "k" and on
"k v" returns an empty sequence with a nil error, even though the step
operation did produce the Field. -/
theorem c1_eof_field_dropped :
    Parser.Read defaultP none "k".toList 2 =
      (defaultP, some .eofR, some (.Field "k" ""), some .eof, []) ∧
    Parse "k".toList [] = ([], none) ∧
    Parse "k v".toList [] = ([], none) := by
  refine ⟨by decide, by decide, by decide⟩

/-- C2 counterexample: on the claimed input, a brace written directly
after key characters is accumulated into the key, so Parse yields
Field "a{" "b c" and then ErrUnexpectedNodeLeave on the closing brace,
not the claimed NodeEnter sequence. -/
theorem c2_counterexample :
    Parse "a\x7b\n  b c\n\x7d".toList [] =
      ([some (.Field "a\x7b" "b c")], some .unexpectedNodeLeave) ∧
    keyDelim '{' = false := by
  refine ⟨by decide, by decide⟩

/-- C2 amended: a brace that is the first non-whitespace character in
value position opens a block labeled by the preceding key, so the claimed
event sequence arises for the input with a space before the brace; a
brace written directly after key characters is taken into the key. -/
theorem c2_labeled_node_after_space :
    Parse "a \x7b\n  b c\n\x7d".toList [] =
      ([some (.NodeEnter "a"), some (.Field "b" "c"), some (.NodeLeave 1)], none) ∧
    (accumL defaultP keyDelim false '\x00' [] "a\x7b".toList).1 = "a\x7b".toList := by
  refine ⟨by decide, by decide⟩

/-- C3: a closing brace at depth 0 produces no piece and the
ErrUnexpectedNodeLeave error, and installs the poisoned continuation;
every invocation of the poisoned continuation reproduces its error
without touching the parser or the input. -/
theorem c3_unexpected_node_leave (p : Parser) (rest inp : List Char) (e : Err)
    (h : p.depth = 0) :
    stepNext p .key ('}' :: rest) =
      (p, some (.errR .unexpectedNodeLeave), none, some .unexpectedNodeLeave, rest) ∧
    stepNext p (.errR e) inp = (p, some (.errR e), none, some e, inp) := by
  constructor
  · simp only [stepNext, readKey, readRune]
    rw [skipWS_no '}' none rest (by decide)]
    simp [leave, h]
  · rfl

/-- C3 witness at the default parser. -/
theorem c3_unexpected_node_leave_witness :
    defaultP.depth = 0 ∧
    (stepNext defaultP .key ('}' :: []) =
      (defaultP, some (.errR .unexpectedNodeLeave), none,
        some .unexpectedNodeLeave, []) ∧
    stepNext defaultP (.errR .unexpectedNodeLeave) ['x'] =
      (defaultP, some (.errR .unexpectedNodeLeave), none,
        some .unexpectedNodeLeave, ['x'])) :=
  ⟨by decide, c3_unexpected_node_leave defaultP [] ['x'] .unexpectedNodeLeave (by decide)⟩

/-- C4: across any Read step the depth stays non-negative and changes
exactly with the emitted piece: NodeEnter increments it, NodeLeave
decrements it and carries the pre-decrement depth (hence at least 1), and
any other outcome leaves it unchanged; a freshly reset parser starts at
depth 0. -/
theorem c4_depth_invariant (p : Parser) (n : Option PNext) (input : List Char)
    (fuel : Nat) (p1 : Parser) (n1 : Option PNext) (piece : Option Piece)
    (err : Option Err) (rem : List Char) (cfgs : List Configuration)
    (h0 : 0 ≤ p.depth)
    (h : Parser.Read p n input fuel = (p1, n1, piece, err, rem)) :
    0 ≤ p1.depth ∧
    (∀ s, piece = some (.NodeEnter s) → p1.depth = p.depth + 1) ∧
    (∀ d, piece = some (.NodeLeave d) →
      d = p.depth ∧ 1 ≤ d ∧ p1.depth = p.depth - 1) ∧
    ((∀ s, piece ≠ some (.NodeEnter s)) → (∀ d, piece ≠ some (.NodeLeave d)) →
      p1.depth = p.depth) ∧
    (Parser.ResetWith cfgs).depth = 0 := by
  simp only [Parser.Read] at h
  rcases readLoop_cases fuel p (some (n.getD .key)) input p1 n1 piece err rem h with
    ⟨hp1, k, hk⟩ | ⟨hne, hp1, hk⟩ | ⟨hp1, hrest⟩
  · refine ⟨by simp [hp1]; omega, ?_, ?_, ?_, ResetWith_depth cfgs⟩
    · intro s _
      simp [hp1]
    · intro d hd
      rw [hk] at hd
      exact absurd hd (by simp)
    · intro hne _
      exact absurd hk (hne k)
  · refine ⟨by simp [hp1]; omega, ?_, ?_, ?_, ResetWith_depth cfgs⟩
    · intro s hs
      rw [hk] at hs
      exact absurd hs (by simp)
    · intro d hd
      rw [hk] at hd
      have hdd : d = p.depth := by
        have := Option.some.inj hd
        cases this
        rfl
      refine ⟨hdd, by omega, by simp [hp1]⟩
    · intro _ hnl
      exact absurd hk (hnl p.depth)
  · refine ⟨by rw [hp1]; exact h0, ?_, ?_, ?_, ResetWith_depth cfgs⟩
    · intro s hs
      rcases hrest with h5 | ⟨k, v, h5⟩ | ⟨_, t, h5⟩ <;> rw [h5] at hs <;> simp at hs
    · intro d hd
      rcases hrest with h5 | ⟨k, v, h5⟩ | ⟨_, t, h5⟩ <;> rw [h5] at hd <;> simp at hd
    · intro _ _
      rw [hp1]

/-- C4 witness: one NodeEnter step from the default parser. -/
theorem c4_depth_invariant_witness :
    (0 : Int) ≤ defaultP.depth ∧
    (0 ≤ (Parser.mk false false false 1).depth ∧
     (∀ s, (some (Piece.NodeEnter "") : Option Piece) = some (.NodeEnter s) →
        (Parser.mk false false false 1).depth = defaultP.depth + 1) ∧
     (∀ d, (some (Piece.NodeEnter "") : Option Piece) = some (.NodeLeave d) →
        d = defaultP.depth ∧ 1 ≤ d ∧
        (Parser.mk false false false 1).depth = defaultP.depth - 1) ∧
     ((∀ s, (some (Piece.NodeEnter "") : Option Piece) ≠ some (.NodeEnter s)) →
       (∀ d, (some (Piece.NodeEnter "") : Option Piece) ≠ some (.NodeLeave d)) →
        (Parser.mk false false false 1).depth = defaultP.depth) ∧
     (Parser.ResetWith []).depth = 0) :=
  ⟨by decide,
   c4_depth_invariant defaultP none "\x7b".toList 2 (Parser.mk false false false 1)
     (some .key) (some (.NodeEnter "")) none [] [] (by decide) (by decide)⟩

/-- C9: for every byte read without error, the 8-bit fallback reader
returns the replacement character with size 1 exactly when bit 0x8 (bit
index 3) of the byte is set, and the byte itself with size 1 otherwise;
in particular a byte with only the conventional high bit 0x80 set is NOT
replaced, confirming that the code tests 0x8 rather than 0x80. -/
theorem c9_ascii_read_rune (b : Nat) (rest : List Nat) (hb : b < 256) :
    ASCIIReadRune (b :: rest) =
      ((if b.testBit 3 then 0xFFFD else b), 1, none, rest) ∧
    (b.testBit 7 = true → b.testBit 3 = false →
      (ASCIIReadRune (b :: rest)).1 = b ∧ (ASCIIReadRune (b :: rest)).1 ≠ 0xFFFD) := by
  have key : ∀ x, x < 256 → ((x.land 8 != 0) = x.testBit 3) := by decide
  have h1 : ASCIIReadRune (b :: rest) =
      ((if b.testBit 3 then 0xFFFD else b), 1, none, rest) := by
    simp only [ASCIIReadRune]
    rw [key b hb]
    by_cases ht : b.testBit 3 = true <;> simp [ht]
  refine ⟨h1, ?_⟩
  intro _ h3
  rw [h1]
  simp [h3]
  omega

/-- C9 witness at byte 0x80 (only the 0x80 bit set: passes through) and
the theorem instance for it. -/
theorem c9_ascii_read_rune_witness :
    (0x80 : Nat) < 256 ∧
    (ASCIIReadRune [0x80] = ((if Nat.testBit 0x80 3 then 0xFFFD else 0x80), 1, none, []) ∧
     (Nat.testBit 0x80 7 = true → Nat.testBit 0x80 3 = false →
       (ASCIIReadRune [0x80]).1 = 0x80 ∧ (ASCIIReadRune [0x80]).1 ≠ 0xFFFD)) :=
  ⟨by decide, c9_ascii_read_rune 0x80 [] (by decide)⟩

/-- dropWhile splits off a prefix of characters all satisfying the
predicate. -/
theorem dropWhile_trim_split (l : List Char) :
    ∃ w, l = w ++ l.dropWhile (fun c => trimCut c) ∧ ∀ c ∈ w, trimCut c = true := by
  induction l with
  | nil => exact ⟨[], rfl, by simp⟩
  | cons a rest ih =>
    by_cases ha : trimCut a = true
    · obtain ⟨w, hw, hall⟩ := ih
      refine ⟨a :: w, ?_, ?_⟩
      · simp [List.dropWhile_cons, ha]
        exact hw
      · intro c hc
        rcases List.mem_cons.mp hc with rfl | hc
        · exact ha
        · exact hall c hc
    · refine ⟨[], ?_, by simp⟩
      simp [List.dropWhile_cons, ha]

/-- The first character surviving dropWhile does not satisfy the
predicate. -/
theorem dropWhile_trim_head (l : List Char) (c : Char)
    (h : (l.dropWhile (fun c => trimCut c)).head? = some c) : trimCut c = false := by
  induction l with
  | nil => simp at h
  | cons a rest ih =>
    by_cases ha : trimCut a = true
    · rw [List.dropWhile_cons] at h
      simp [ha] at h
      exact ih (by simpa using h)
    · rw [List.dropWhile_cons] at h
      simp [ha] at h
      rw [← h]
      simp [ha]

/-- The last element of a reversed list is the head of the list. -/
theorem getLast?_rev (l : List Char) : l.reverse.getLast? = l.head? := by
  cases l with
  | nil => rfl
  | cons a rest => simp

/-- C8: with TrimTrailingWhitespace enabled (keepTrailingWhitespace
false), the emitted value is the buffer with exactly the maximal trailing
run of space, tab, CR and LF removed: the removed suffix consists only of
those characters and what remains does not end in one; with it disabled
the buffer is emitted verbatim.  The TrimWhitespace configuration toggles
the flag with this polarity. -/
theorem c8_trim_trailing (p : Parser) (buf : List Char) :
    (p.keepTrailingWhitespace = false →
      emitValue p buf = String.mk (trimRightWS buf) ∧
      (∃ w, buf = trimRightWS buf ++ w ∧ (∀ c ∈ w, trimCut c = true)) ∧
      (∀ c, (trimRightWS buf).getLast? = some c → trimCut c = false)) ∧
    (p.keepTrailingWhitespace = true → emitValue p buf = String.mk buf) ∧
    (Parser.ResetWith [.TrimWhitespace true]).keepTrailingWhitespace = false ∧
    (Parser.ResetWith [.TrimWhitespace false]).keepTrailingWhitespace = true := by
  refine ⟨?_, ?_, by decide, by decide⟩
  · intro hk
    refine ⟨?_, ?_, ?_⟩
    · by_cases hb : buf.length > 0
      · simp [emitValue, hk, hb]
      · have hbe : buf = [] := by
          cases buf
          · rfl
          · simp at hb
        subst hbe
        simp [emitValue, trimRightWS]
    · obtain ⟨w, hw, hall⟩ := dropWhile_trim_split buf.reverse
      refine ⟨w.reverse, ?_, ?_⟩
      · conv_lhs => rw [← List.reverse_reverse buf]
        rw [hw]
        simp [trimRightWS]
      · intro c hc
        exact hall c (List.mem_reverse.mp hc)
    · intro c hc
      rw [trimRightWS, getLast?_rev] at hc
      exact dropWhile_trim_head buf.reverse c hc
  · intro hk
    by_cases hb : buf.length > 0
    · simp [emitValue, hk, hb]
    · have hbe : buf = [] := by
        cases buf
        · rfl
        · simp at hb
      subst hbe
      simp [emitValue]

/-- C8 witness: a value buffer with a mixed trailing whitespace run,
under both flag polarities. -/
theorem c8_trim_trailing_witness :
    ((Parser.ResetWith [.TrimWhitespace true]).keepTrailingWhitespace = false →
      emitValue (Parser.ResetWith [.TrimWhitespace true]) "a b \t\r\n ".toList =
        String.mk (trimRightWS "a b \t\r\n ".toList) ∧
      (∃ w, "a b \t\r\n ".toList = trimRightWS "a b \t\r\n ".toList ++ w ∧
        (∀ c ∈ w, trimCut c = true)) ∧
      (∀ c, (trimRightWS "a b \t\r\n ".toList).getLast? = some c →
        trimCut c = false)) ∧
    ((Parser.ResetWith [.TrimWhitespace true]).keepTrailingWhitespace = true →
      emitValue (Parser.ResetWith [.TrimWhitespace true]) "a b \t\r\n ".toList =
        String.mk "a b \t\r\n ".toList) ∧
    (Parser.ResetWith [.TrimWhitespace true]).keepTrailingWhitespace = false ∧
    (Parser.ResetWith [.TrimWhitespace false]).keepTrailingWhitespace = true :=
  c8_trim_trailing (Parser.ResetWith [.TrimWhitespace true]) "a b \t\r\n ".toList

/-- The loop body never writes a carriage return and never arms the
escape unless the character is a backslash: the resulting buffer stays
free of CR. -/
theorem accumStep_no_cr (p : Parser) (last : Char) (buf : List Char) (c : Char)
    (hc : c ≠ '\\') (hbuf : '\r' ∉ buf) :
    '\r' ∉ (accumStep p false last buf c).2.2 := by
  by_cases h1 : c = '\r'
  · simp [accumStep, h1]
    exact hbuf
  · have h1' : (c == '\r') = false := by simp [h1]
    have h2' : (c == '\\') = false := by simp [hc]
    simp only [accumStep, h1', h2', Bool.false_eq_true, if_false, Bool.not_false,
      Bool.true_and, Bool.and_false]
    by_cases h3 : (!p.keepSeqWhitespace && isSpace last && isSpace c) = true
    · simp [h3]
      exact hbuf
    · simp [h3]
      exact ⟨hbuf, fun hh => h1 hh.symm⟩

/-- Processing a non-backslash character from the unescaped state leaves
the escape flag unarmed. -/
theorem accumStep_no_escape (p : Parser) (last : Char) (buf : List Char)
    (c : Char) (hc : c ≠ '\\') : (accumStep p false last buf c).1 = false := by
  have h2' : (c == '\\') = false := by simp [hc]
  by_cases h1 : c = '\r'
  · simp [accumStep, h1]
  · have h1' : (c == '\r') = false := by simp [h1]
    simp only [accumStep, h1', h2', Bool.false_eq_true, if_false, Bool.not_false,
      Bool.true_and, Bool.and_false]
    by_cases h3 : (!p.keepSeqWhitespace && isSpace last && isSpace c) = true <;>
      simp [h3]

/-- Backslash-free value accumulation never places a carriage return in
the buffer. -/
theorem accum_no_cr (p : Parser) :
    ∀ (s : List Char) (c : Char) (last : Char) (buf : List Char),
      '\\' ∉ c :: s → '\r' ∉ buf →
      '\r' ∉ (accum p valueDelim false last buf c none s).1 := by
  intro s
  induction s with
  | nil =>
    intro c last buf hne hbuf
    have hc : c ≠ '\\' := by
      intro hh
      exact hne (by simp [hh])
    by_cases hd : valueDelim c = true
    · rw [accum_exit p valueDelim false last buf c [] (by simp [hd])]
      exact hbuf
    · rw [accum_cont p valueDelim false last buf c [] (by simp [hd])]
      simp only [accumL]
      exact accumStep_no_cr p last buf c hc hbuf
  | cons a rest ih =>
    intro c last buf hne hbuf
    have hc : c ≠ '\\' := by
      intro hh
      exact hne (by simp [hh])
    have hne' : '\\' ∉ a :: rest := by
      intro hh
      exact hne (List.mem_cons_of_mem c hh)
    by_cases hd : valueDelim c = true
    · rw [accum_exit p valueDelim false last buf c (a :: rest) (by simp [hd])]
      exact hbuf
    · rw [accum_cont p valueDelim false last buf c (a :: rest) (by simp [hd])]
      simp only [accumL]
      rw [accumStep_no_escape p last buf c hc]
      exact ih a (accumStep p false last buf c).2.1 (accumStep p false last buf c).2.2
        hne' (accumStep_no_cr p last buf c hc hbuf)

/-- C10: an unescaped carriage return during value accumulation is
discarded entirely: processing it is identical to processing the rest of
the input from the same loop state (so it is not written, does not
terminate the value, and leaves a pending escape armed), and a buffer
accumulated from backslash-free input never contains a carriage
return. -/
theorem c10_cr_discarded (p : Parser) :
    (∀ (esc : Bool) (last : Char) (buf rest : List Char),
      accum p valueDelim esc last buf '\r' none rest =
        accumL p valueDelim esc last buf rest) ∧
    (∀ (c : Char) (s : List Char) (last : Char) (buf : List Char),
      '\\' ∉ c :: s → '\r' ∉ buf →
      '\r' ∉ (accum p valueDelim false last buf c none s).1) := by
  constructor
  · intro esc last buf rest
    cases rest with
    | nil =>
      rw [accum.eq_def]
      simp [valueDelim, accumStep, accumL]
    | cons a r =>
      rw [accum.eq_def]
      simp [valueDelim, accumStep, accumL]
  · exact fun c s last buf => accum_no_cr p s c last buf

/-- C10 witness: CR transparency with a pending escape (the backslash CR
LF line-continuation shape) and CR-freedom on a small backslash-free
input. -/
theorem c10_cr_discarded_witness :
    (accum defaultP valueDelim true 'v' ['v'] '\r' none ('\n' :: " w".toList) =
      accumL defaultP valueDelim true 'v' ['v'] ('\n' :: " w".toList)) ∧
    ('\r' ∉ (accum defaultP valueDelim false '\x00' [] 'a' none "bc".toList).1) :=
  ⟨(c10_cr_discarded defaultP).1 true 'v' ['v'] ('\n' :: " w".toList),
   (c10_cr_discarded defaultP).2 'a' "bc".toList '\x00' [] (by decide) (by decide)⟩

/-- keyEscaper on a nonempty string. -/
theorem keyEscape_cons (a : Char) (s : List Char) :
    keyEscape (a :: s) = keyEscape1 a ++ keyEscape s := by
  simp [keyEscape]

/-- valueEscaper on a nonempty string. -/
theorem valueEscape_cons (a : Char) (s : List Char) :
    valueEscape (a :: s) = valueEscape1 a ++ valueEscape s := by
  simp [valueEscape]

/-- A backslash in the unescaped state arms the escape and writes
nothing. -/
theorem accumStep_backslash (p : Parser) (last : Char) (buf : List Char) :
    accumStep p false last buf '\\' = (true, last, buf) := by
  simp [accumStep]

/-- An escaped character other than CR and a literal newline decodes and
is written, bypassing the compression check. -/
theorem accumStep_escape_decode (p : Parser) (last : Char) (buf : List Char)
    (x : Char) (h1 : x ≠ '\r') (h2 : x ≠ '\n') :
    accumStep p true last buf x = (false, escDecode x, buf ++ [escDecode x]) := by
  have h1' : (x == '\r') = false := by simp [h1]
  have h2' : (x == '\n') = false := by simp [h2]
  simp [accumStep, h1', h2']

/-- With compression disabled, any escaped character other than CR
(including a literal newline, whose chomp is skipped) decodes and is
written. -/
theorem accumStep_escape_decode_keep (p : Parser) (last : Char) (buf : List Char)
    (x : Char) (hp : p.keepSeqWhitespace = true) (h1 : x ≠ '\r') :
    accumStep p true last buf x = (false, escDecode x, buf ++ [escDecode x]) := by
  by_cases h2 : x = '\n'
  · subst h2
    simp [accumStep, hp, escDecode]
  · exact accumStep_escape_decode p last buf x h1 h2

/-- accum_cont with the body result supplied. -/
theorem accum_cont2 (p : Parser) (d : Char → Bool) (esc : Bool) (last : Char)
    (buf : List Char) (c : Char) (rem : List Char) (esc2 : Bool) (last2 : Char)
    (buf2 : List Char) (hc : (esc || !d c) = true)
    (hst : accumStep p esc last buf c = (esc2, last2, buf2)) :
    accum p d esc last buf c none rem = accumL p d esc2 last2 buf2 rem := by
  rw [accum_cont p d esc last buf c rem hc, hst]

/-- Feeding the key escaping of any string over the key alphabet through
the key accumulation loop appends exactly that string to the buffer,
under every configuration. -/
theorem keyEscape_decode (p : Parser) :
    ∀ (s : List Char), (∀ a ∈ s, a ∈ keyAlphabet) →
      ∀ (last : Char) (buf : List Char),
      accumL p keyDelim false last buf (keyEscape s) =
        (buf ++ s, '\x00', some .eof, []) := by
  intro s
  induction s with
  | nil =>
    intro _ last buf
    simp [keyEscape, accumL]
  | cons a s ih =>
    intro hmem last buf
    have ha : a ∈ keyAlphabet := hmem a (List.mem_cons_self a s)
    have hs : ∀ b ∈ s, b ∈ keyAlphabet := fun b hb => hmem b (List.mem_cons_of_mem a hb)
    fin_cases ha <;>
    · rw [keyEscape_cons]
      simp [keyEscape1]
      simp only [accumL]
      rw [accum_cont2 p keyDelim false last buf '\\' _ true last buf (by decide)
        (accumStep_backslash p last buf)]
      simp only [accumL]
      rw [accum_cont2 p keyDelim true last buf _ (keyEscape s) false _ _
        (by simp) (accumStep_escape_decode p last buf _ (by decide) (by decide))]
      rw [ih hs]
      simp [escDecode]

/-- Feeding the value escaping of any string over the value alphabet
through the value accumulation loop appends exactly that string to the
buffer, when whitespace compression is disabled. -/
theorem valueEscape_decode (p : Parser) (hp : p.keepSeqWhitespace = true) :
    ∀ (s : List Char), (∀ a ∈ s, a ∈ valueAlphabet) →
      ∀ (last : Char) (buf : List Char),
      accumL p valueDelim false last buf (valueEscape s) =
        (buf ++ s, '\x00', some .eof, []) := by
  intro s
  induction s with
  | nil =>
    intro _ last buf
    simp [valueEscape, accumL]
  | cons a s ih =>
    intro hmem last buf
    have ha : a ∈ valueAlphabet := hmem a (List.mem_cons_self a s)
    have hs : ∀ b ∈ s, b ∈ valueAlphabet := fun b hb => hmem b (List.mem_cons_of_mem a hb)
    fin_cases ha <;>
    · rw [valueEscape_cons]
      simp [valueEscape1]
      simp only [accumL]
      rw [accum_cont2 p valueDelim false last buf '\\' _ true last buf (by decide)
        (accumStep_backslash p last buf)]
      simp only [accumL]
      rw [accum_cont2 p valueDelim true last buf _ (valueEscape s) false _ _
        (by simp) (accumStep_escape_decode_keep p last buf _ hp (by decide))]
      rw [ih hs]
      simp [escDecode]

/-- C5 counterexample: for the value table under the default
configuration (whitespace compression on), decode(escape(s)) loses the
vertical tab of s = [VT, LF]: the backslash-newline rendering of the LF
chomps the preceding buffered whitespace during decoding. -/
theorem c5_counterexample :
    (∀ a ∈ ['\x0B', '\n'], a ∈ valueAlphabet) ∧
    defaultP.keepSeqWhitespace = false ∧
    (accumL defaultP valueDelim false '\x00' [] (valueEscape ['\x0B', '\n'])).1 =
      ['\n'] ∧
    (accumL defaultP valueDelim false '\x00' [] (valueEscape ['\x0B', '\n'])).1 ≠
      ['\x0B', '\n'] := by
  refine ⟨by decide, by decide, by decide, by decide⟩

/-- C5 amended: decode(escape(s)) == s holds for the key table under
every configuration, and for the value table whenever whitespace
compression is disabled; with compression enabled the value-table round
trip can fail because decoding a backslash-newline chomps buffered
whitespace. -/
theorem c5_roundtrip_amended :
    (∀ (p : Parser) (s : List Char), (∀ a ∈ s, a ∈ keyAlphabet) →
      (accumL p keyDelim false '\x00' [] (keyEscape s)).1 = s) ∧
    (∀ (p : Parser) (s : List Char), p.keepSeqWhitespace = true →
      (∀ a ∈ s, a ∈ valueAlphabet) →
      (accumL p valueDelim false '\x00' [] (valueEscape s)).1 = s) := by
  constructor
  · intro p s hsmem
    rw [keyEscape_decode p s hsmem '\x00' []]
    simp
  · intro p s hp hs
    rw [valueEscape_decode p hp s hs '\x00' []]
    simp

/-- C5 witness: round trips of concrete strings over each alphabet. -/
theorem c5_roundtrip_amended_witness :
    (accumL defaultP keyDelim false '\x00' [] (keyEscape ['\t', '!', ' '])).1 =
      ['\t', '!', ' '] ∧
    (accumL (Parser.ResetWith [.CompressWhitespace false]) valueDelim false '\x00' []
      (valueEscape ['\x0B', '\n'])).1 = ['\x0B', '\n'] :=
  ⟨c5_roundtrip_amended.1 defaultP ['\t', '!', ' '] (by decide),
   c5_roundtrip_amended.2 (Parser.ResetWith [.CompressWhitespace false])
     ['\x0B', '\n'] (by decide) (by decide)⟩

/-- Appending a character that does not extend a whitespace pair at the
junction preserves freedom from adjacent whitespace. -/
theorem noAdjWS_append (buf : List Char) :
    ∀ (last c : Char), noAdjWS buf = true →
      (buf = [] ∨ buf.getLast? = some last) →
      (isSpace last && isSpace c) = false →
      noAdjWS (buf ++ [c]) = true := by
  induction buf with
  | nil =>
    intro last c _ _ _
    simp [noAdjWS]
  | cons a rest ih =>
    intro last c hn hl hc
    cases rest with
    | nil =>
      have hla : last = a := by
        rcases hl with h | h
        · simp at h
        · simpa using h.symm
      subst hla
      simp [noAdjWS, hc]
    | cons b rest2 =>
      have hn' : (isSpace a && isSpace b) = false ∧ noAdjWS (b :: rest2) = true := by
        simp only [noAdjWS, Bool.and_eq_true, Bool.not_eq_true'] at hn
        exact hn
      have hl' : (b :: rest2) = [] ∨ (b :: rest2).getLast? = some last := by
        rcases hl with h | h
        · simp at h
        · right
          simpa [List.getLast?] using h
      have := ih last c hn'.2 hl' hc
      simp only [List.cons_append] at this ⊢
      simp only [noAdjWS, Bool.and_eq_true, Bool.not_eq_true']
      exact ⟨hn'.1, this⟩

/-- From the unescaped state, a non-backslash character either leaves the
state untouched (CR skip or compression skip) or is written with the
compression condition false. -/
theorem accumStep_unesc (p : Parser) (last c : Char) (buf : List Char)
    (hc : c ≠ '\\') :
    accumStep p false last buf c = (false, last, buf) ∨
    ((!p.keepSeqWhitespace && isSpace last && isSpace c) = false ∧
      accumStep p false last buf c = (false, c, buf ++ [c])) := by
  have h2' : (c == '\\') = false := by simp [hc]
  by_cases h1 : c = '\r'
  · subst h1
    left
    simp [accumStep]
  · have h1' : (c == '\r') = false := by simp [h1]
    by_cases h3 : (!p.keepSeqWhitespace && isSpace last && isSpace c) = true
    · left
      simp [accumStep, h1', h2', h3]
    · right
      simp only [Bool.not_eq_true] at h3
      refine ⟨h3, ?_⟩
      simp [accumStep, h1', h2', h3]

/-- With compression enabled and backslash-free input, the buffer never
holds two adjacent whitespace characters. -/
theorem accum_noAdj (p : Parser) (hp : p.keepSeqWhitespace = false)
    (d : Char → Bool) :
    ∀ (s : List Char) (c last : Char) (buf : List Char),
      '\\' ∉ c :: s → noAdjWS buf = true →
      (buf = [] ∨ buf.getLast? = some last) →
      noAdjWS (accum p d false last buf c none s).1 = true := by
  intro s
  induction s with
  | nil =>
    intro c last buf hne hn hl
    have hc : c ≠ '\\' := fun hh => hne (by simp [hh])
    by_cases hd : d c = true
    · rw [accum_exit p d false last buf c [] (by simp [hd])]
      exact hn
    · rcases accumStep_unesc p last c buf hc with hst | ⟨hsp, hst⟩
      · rw [accum_cont2 p d false last buf c [] false last buf (by simp [hd]) hst]
        exact hn
      · rw [accum_cont2 p d false last buf c [] false c (buf ++ [c])
          (by simp [hd]) hst]
        simp only [accumL]
        rw [hp] at hsp
        simp only [Bool.not_false, Bool.true_and] at hsp
        exact noAdjWS_append buf last c hn hl hsp
  | cons a rest ih =>
    intro c last buf hne hn hl
    have hc : c ≠ '\\' := fun hh => hne (by simp [hh])
    have hne' : '\\' ∉ a :: rest := fun hh => hne (List.mem_cons_of_mem c hh)
    by_cases hd : d c = true
    · rw [accum_exit p d false last buf c (a :: rest) (by simp [hd])]
      exact hn
    · rcases accumStep_unesc p last c buf hc with hst | ⟨hsp, hst⟩
      · rw [accum_cont2 p d false last buf c (a :: rest) false last buf
          (by simp [hd]) hst]
        exact ih a last buf hne' hn hl
      · rw [accum_cont2 p d false last buf c (a :: rest) false c (buf ++ [c])
          (by simp [hd]) hst]
        rw [hp] at hsp
        simp only [Bool.not_false, Bool.true_and] at hsp
        exact ih a c (buf ++ [c]) hne' (noAdjWS_append buf last c hn hl hsp)
          (Or.inr (List.getLast?_concat buf))

/-- With compression disabled, a plain character (no CR, no backslash,
no delimiter) is written verbatim. -/
theorem accumStep_plain (p : Parser) (last c : Char) (buf : List Char)
    (hp : p.keepSeqWhitespace = true) (h1 : c ≠ '\r') (h2 : c ≠ '\\') :
    accumStep p false last buf c = (false, c, buf ++ [c]) := by
  have h1' : (c == '\r') = false := by simp [h1]
  have h2' : (c == '\\') = false := by simp [h2]
  simp [accumStep, h1', h2', hp]

/-- With compression disabled, backslash-free CR-free delimiter-free
input is accumulated verbatim. -/
theorem accum_verbatim (p : Parser) (hp : p.keepSeqWhitespace = true)
    (d : Char → Bool) :
    ∀ (s : List Char) (c last : Char) (buf : List Char),
      '\\' ∉ c :: s → '\r' ∉ c :: s → (∀ a ∈ c :: s, d a = false) →
      accum p d false last buf c none s =
        (buf ++ c :: s, '\x00', some .eof, []) := by
  intro s
  induction s with
  | nil =>
    intro c last buf hb hr hd
    have hst := accumStep_plain p last c buf hp
      (fun hh => hr (by simp [hh])) (fun hh => hb (by simp [hh]))
    rw [accum_cont2 p d false last buf c [] false c (buf ++ [c])
      (by simp [hd c (by simp)]) hst]
    simp [accumL]
  | cons a rest ih =>
    intro c last buf hb hr hd
    have hst := accumStep_plain p last c buf hp
      (fun hh => hr (by simp [hh])) (fun hh => hb (by simp [hh]))
    rw [accum_cont2 p d false last buf c (a :: rest) false c (buf ++ [c])
      (by simp [hd c (by simp)]) hst]
    simp only [accumL]
    rw [ih a c (buf ++ [c]) (fun hh => hb (List.mem_cons_of_mem c hh))
      (fun hh => hr (List.mem_cons_of_mem c hh))
      (fun x hx => hd x (List.mem_cons_of_mem c hx))]
    simp

/-- C6 counterexample: under the default configuration (compression on),
an escape-decoded whitespace character is written even directly after
whitespace, so the emitted value "a \tb" keeps a two-character whitespace
run; the claim that every run, including escape-produced whitespace,
collapses is false. -/
theorem c6_counterexample :
    Parse "k a \\tb\nx!".toList [] =
      ([some (.Field "k" "a \tb"), some (.Field "x" "")], none) ∧
    noAdjWS "a \tb".toList = false ∧
    defaultP.keepSeqWhitespace = false := by
  refine ⟨by decide, by decide, by decide⟩

/-- C6 amended: with CompressWhitespace enabled, a run of consecutive
whitespace characters all arriving unescaped collapses (the accumulated
buffer never contains two adjacent whitespace characters when the input
is backslash-free), but an escape-decoded whitespace character is always
written, even adjacent to whitespace; with it disabled, backslash-free
CR-free delimiter-free input is accumulated verbatim. -/
theorem c6_compress_amended :
    (∀ (p : Parser) (d : Char → Bool) (c : Char) (s : List Char),
      p.keepSeqWhitespace = false → '\\' ∉ c :: s →
      noAdjWS (accum p d false '\x00' [] c none s).1 = true) ∧
    (∀ (p : Parser) (d : Char → Bool) (c : Char) (s : List Char),
      p.keepSeqWhitespace = true → '\\' ∉ c :: s → '\r' ∉ c :: s →
      (∀ a ∈ c :: s, d a = false) →
      accum p d false '\x00' [] c none s = (c :: s, '\x00', some .eof, [])) := by
  constructor
  · intro p d c s hp hb
    exact accum_noAdj p hp d s c '\x00' [] hb (by simp [noAdjWS]) (Or.inl rfl)
  · intro p d c s hp hb hr hd
    rw [accum_verbatim p hp d s c '\x00' [] hb hr hd]
    simp

/-- C6 witness: compression collapses the run in "a \t b", and with
compression off the same characters survive verbatim. -/
theorem c6_compress_amended_witness :
    noAdjWS (accum defaultP valueDelim false '\x00' [] 'a' none " \t b".toList).1 =
      true ∧
    accum (Parser.ResetWith [.CompressWhitespace false]) valueDelim false '\x00' []
      'a' none " \t b".toList = ("a \t b".toList, '\x00', some .eof, []) :=
  ⟨c6_compress_amended.1 defaultP valueDelim 'a' " \t b".toList (by decide) (by decide),
   c6_compress_amended.2 (Parser.ResetWith [.CompressWhitespace false]) valueDelim
     'a' " \t b".toList (by decide) (by decide) (by decide) (by decide)⟩

/-- readUntil on a line whose terminator is present returns the text with
its newline and no error. -/
theorem readUntil_nl (text : List Char) (rest : List Char) (h : '\n' ∉ text) :
    readUntil '\n' (text ++ '\n' :: rest) = (text ++ ['\n'], none, rest) := by
  induction text with
  | nil =>
    rw [List.nil_append, readUntil.eq_def]
    simp
  | cons a t ih =>
    have ha : a ≠ '\n' := fun hh => h (by simp [hh])
    have ht : '\n' ∉ t := fun hh => h (List.mem_cons_of_mem a hh)
    have ha' : (a == '\n') = false := by simp [ha]
    rw [List.cons_append, readUntil.eq_def]
    simp [ha', ih ht]

/-- The Read loop never changes the configuration flags. -/
theorem readLoop_readComments (fuel : Nat) (p : Parser) (n : Option PNext)
    (input : List Char) (p1 : Parser) (n1 : Option PNext) (piece : Option Piece)
    (err : Option Err) (rem : List Char)
    (h : readLoop fuel p n input = (p1, n1, piece, err, rem)) :
    p1.readComments = p.readComments := by
  rcases readLoop_cases fuel p n input p1 n1 piece err rem h with
    ⟨hp1, _⟩ | ⟨_, hp1, _⟩ | ⟨hp1, _⟩ <;> simp [hp1]

/-- With readComments off, the Read loop never yields a Comment piece. -/
theorem readLoop_no_comment (fuel : Nat) (p : Parser) (n : Option PNext)
    (input : List Char) (p1 : Parser) (n1 : Option PNext) (piece : Option Piece)
    (err : Option Err) (rem : List Char)
    (h : readLoop fuel p n input = (p1, n1, piece, err, rem))
    (hrc : p.readComments = false) :
    ∀ t, piece ≠ some (.Comment t) := by
  intro t ht
  rcases readLoop_cases fuel p n input p1 n1 piece err rem h with
    ⟨_, k, hk⟩ | ⟨_, _, hk⟩ | ⟨_, hrest⟩
  · rw [ht] at hk
    simp at hk
  · rw [ht] at hk
    simp at hk
  · rcases hrest with h5 | ⟨k, v, h5⟩ | ⟨hrc2, _⟩
    · rw [ht] at h5
      simp at h5
    · rw [ht] at h5
      simp at h5
    · rw [hrc2] at hrc
      simp at hrc

/-- With readComments off, no element of the bulk parse output is a
Comment piece. -/
theorem parseLoop_no_comment :
    ∀ (fuel : Nat) (p : Parser) (n : Option PNext) (input : List Char),
      p.readComments = false →
      ∀ x ∈ (parseLoop fuel p n input).1, ∀ t, x ≠ some (.Comment t) := by
  intro fuel
  induction fuel with
  | zero =>
    intro p n input _ x hx
    simp [parseLoop] at hx
  | succ fuel ih =>
    intro p n input hrc x hx t
    rcases hr : p.Read n input (input.length + 1) with ⟨pa, na, pca, ea, ra⟩
    have hrl : readLoop (input.length + 1) p (some (n.getD .key)) input =
        (pa, na, pca, ea, ra) := hr
    rcases ea with _ | e
    · rcases hpl : parseLoop fuel pa na ra with ⟨pieces, err1⟩
      simp only [parseLoop, hr, hpl] at hx
      rcases List.mem_cons.mp hx with rfl | hx2
      · exact readLoop_no_comment (input.length + 1) p (some (n.getD .key)) input
          pa na x none ra hrl hrc t
      · have hfl : pa.readComments = false := by
          rw [readLoop_readComments (input.length + 1) p (some (n.getD .key)) input
            pa na pca none ra hrl]
          exact hrc
        exact ih pa na ra hfl x (by rw [hpl]; exact hx2) t
    · cases e <;> simp only [parseLoop, hr] at hx <;> simp at hx

/-- C7 counterexample: with ReadComments disabled (default), a key
terminated directly by '#' is followed by a comment continuation that
captured a nil resume state, so the next Read returns neither a piece nor
an error — an empty turn — and Parse stores a nil piece in its output. -/
theorem c7_counterexample :
    Parse "k#c\nx!".toList [] =
      ([some (.Field "k" ""), none, some (.Field "x" "")], none) ∧
    none ∈ (Parse "k#c\nx!".toList []).1 ∧
    defaultP.readComments = false ∧
    Parser.Read defaultP (some (.commentThen false)) "c\nx!".toList 10 =
      (defaultP, none, none, none, "x!".toList) := by
  refine ⟨by decide, by decide, by decide, by decide⟩

/-- C7 amended: with ReadComments disabled no Comment event is ever
produced, but the step after a Field whose key was terminated directly by
'#' is an empty turn (nil piece, nil error, recorded as a nil entry by
Parse); with ReadComments enabled the comment text is surfaced verbatim,
without the leading '#' (consumed in readKey/readValue dispatch) and
without the trailing newline. -/
theorem c7_comments_amended :
    (∀ (fuel : Nat) (p : Parser) (n : Option PNext) (input : List Char),
      p.readComments = false →
      ∀ x ∈ (parseLoop fuel p n input).1, ∀ t, x ≠ some (.Comment t)) ∧
    Parse "k#c\nx!".toList [] =
      ([some (.Field "k" ""), none, some (.Field "x" "")], none) ∧
    (∀ (p : Parser) (rk : Bool) (text rest : List Char),
      p.readComments = true → '\n' ∉ text →
      stepNext p (.commentThen rk) (text ++ '\n' :: rest) =
        (p, (if rk then some PNext.key else none),
          some (.Comment (String.mk text)), none, rest)) := by
  refine ⟨parseLoop_no_comment, by decide, ?_⟩
  intro p rk text rest hrc hnl
  simp only [stepNext, readUntil_nl text rest hnl]
  simp [hrc, List.dropLast_concat]

/-- C7 witness: a Field piece of a comment-free run is not a Comment, and
a concrete comment line is surfaced verbatim when enabled. -/
theorem c7_comments_amended_witness :
    (∀ t, (some (Piece.Field "k" "") : Option Piece) ≠ some (.Comment t)) ∧
    stepNext (Parser.ResetWith [.ReadComments true]) (.commentThen true)
      ("hi".toList ++ '\n' :: "rest".toList) =
      (Parser.ResetWith [.ReadComments true], (if true then some PNext.key else none),
        some (.Comment (String.mk "hi".toList)), none, "rest".toList) :=
  ⟨c7_comments_amended.1 3 defaultP none "k!".toList (by decide)
      (some (.Field "k" "")) (by decide),
   c7_comments_amended.2.2 (Parser.ResetWith [.ReadComments true]) true
      "hi".toList "rest".toList (by decide) (by decide)⟩
